import Mathlib

/-!
Shallow embedding of the SRTF scheduling repository.

`srtf_logic.py` provides `srtf_scheduling(processes)`: a discrete-tick
preemptive shortest-remaining-time-first simulation.  `srtf_gui.py`
provides `build_segments(gantt)`: run-length compression of the trace.

Modelling conventions:
* Python dicts `{'pid', 'arrival', 'burst'}` become the structure `Proc`;
  the augmented result dicts (with `'ct'`, `'tat'`, `'wt'` added on
  completion) become `SimP`, whose metric fields are `Option Nat`
  (`none` = key absent).  The parallel array `remaining` is merged into
  the `rem` field of `SimP`; the indices align exactly as in the source.
* Python ints are `Nat` here.  The only subtractions the source performs
  are `finish - arrival` (never negative, since a process is selected
  only when `arrival <= t < finish`) and `tat - burst` followed by a
  clamp to `0`; truncated `Nat` subtraction implements that clamp exactly.
* The float averages `total/n` are modelled as exact rationals.
* The unbounded `while completed < n` loop is modelled with explicit
  fuel (`simLoop`); "the call returned" is the hypothesis that the loop
  condition became false within the given fuel.
* Python's `list.sort(key=...)` is a stable sort; it is modelled by
  `List.insertionSort` with the arrival-time preorder, which is also
  stable (the output of a stable sort is uniquely determined).
-/

/-- An input process descriptor with the canonical keys
`'pid'`, `'arrival'`, `'burst'` of `srtf_logic.py`. -/
structure Proc where
  pid : String
  arrival : Nat
  burst : Nat
deriving DecidableEq

/-- A process dict as held in the engine's `procs` list, merged with its
slot of the parallel `remaining` array, and augmented with the `'ct'`,
`'tat'`, `'wt'` keys that are added when the process completes. -/
structure SimP where
  pid : String
  arrival : Nat
  burst : Nat
  rem : Nat
  ct : Option Nat
  tat : Option Nat
  wt : Option Nat
deriving DecidableEq

/-- The mutable state of the simulation loop of `srtf_scheduling`
(lines 31-53 of `srtf_logic.py`): the process list, the `completed`
counter, the clock `t` and the `gantt` trace. -/
structure SimState where
  procs : List SimP
  completed : Nat
  t : Nat
  gantt : List String
deriving DecidableEq

/-- The identifier-projection of a process entry: the fields that the
simulation never mutates. -/
def SimP.core (p : SimP) : String × Nat × Nat := (p.pid, p.arrival, p.burst)

/-- Arrival-time order used by `procs.sort(key=lambda x: x['arrival'])`. -/
def arrLE (a b : SimP) : Prop := a.arrival ≤ b.arrival

instance : DecidableRel arrLE := fun a b => Nat.decLe a.arrival b.arrival

instance : IsTrans SimP arrLE := ⟨fun _ _ _ => Nat.le_trans⟩

instance : IsTotal SimP arrLE := ⟨fun a b => Nat.le_total a.arrival b.arrival⟩

/-- A fresh simulation entry for a descriptor: `remaining` starts at the
burst time and no metric keys are present. -/
def procToSim (p : Proc) : SimP :=
  { pid := p.pid, arrival := p.arrival, burst := p.burst,
    rem := p.burst, ct := none, tat := none, wt := none }

/-- Lines 19-32: copy the descriptors, sort them (stably) by arrival and
initialise the `remaining` array. -/
def initProcs (ps : List Proc) : List SimP :=
  (ps.map procToSim).insertionSort arrLE

/-- The state at the top of the `while` loop: `completed = 0`, `t = 0`,
empty trace. -/
def initState (ps : List Proc) : SimState :=
  { procs := initProcs ps, completed := 0, t := 0, gantt := [] }

/-- The selection scan of lines 38-44: walk the process list keeping the
running minimum `min_rem` (initialised to the sentinel `10**9`) and the
index `idx` of the last strict improvement; a slot qualifies when it has
arrived, still has work left, and strictly beats the current minimum. -/
def selectScan (t : Nat) : List SimP → Nat → Nat → Option Nat → Option Nat
  | [], _, _, idx => idx
  | p :: rest, i, minRem, idx =>
    if p.arrival ≤ t ∧ 0 < p.rem ∧ p.rem < minRem then
      selectScan t rest (i + 1) p.rem (some i)
    else
      selectScan t rest (i + 1) minRem idx

/-- The index chosen by one execution of lines 38-44 (`none` = the
Python `idx == -1` idle case). -/
def select (s : SimState) : Option Nat :=
  selectScan s.t s.procs 0 (10 ^ 9) none

/-- Junk entry used for the (never taken in range) out-of-bounds default
of list access. -/
def simPdefault : SimP :=
  { pid := "", arrival := 0, burst := 0, rem := 0, ct := none, tat := none, wt := none }

/-- One iteration of the `while` loop body (lines 38-62): either the
idle branch (append `"Idle"`, advance `t`) or run the selected process
for one unit, and on reaching `remaining == 0` record `ct`, `tat` and
the clamped `wt` and bump `completed`. -/
def stepState (s : SimState) : SimState :=
  match select s with
  | none =>
    { s with gantt := s.gantt ++ ["Idle"], t := s.t + 1 }
  | some i =>
    let p := s.procs.getD i simPdefault
    let newRem := p.rem - 1
    let finish := s.t + 1
    let p2 :=
      if newRem = 0 then
        { p with rem := newRem, ct := some finish,
                 tat := some (finish - p.arrival),
                 wt := some (finish - p.arrival - p.burst) }
      else
        { p with rem := newRem }
    { procs := s.procs.set i p2,
      completed := if newRem = 0 then s.completed + 1 else s.completed,
      t := finish,
      gantt := s.gantt ++ [p.pid] }

/-- The `while completed < n:` loop, with explicit fuel.  `n` is the
(loop-invariant) length of the process list. -/
def simLoop : Nat → SimState → SimState
  | 0, s => s
  | fuel + 1, s =>
    if s.completed < s.procs.length then simLoop fuel (stepState s) else s

/-- Run the simulation from the initial state for `fuel` iterations. -/
def runFuel (fuel : Nat) (ps : List Proc) : SimState :=
  simLoop fuel (initState ps)

/-- The proposition that the `while` loop of `srtf_scheduling` has
exited within `fuel` iterations, i.e. that the Python call returns. -/
def srtfTerminates (fuel : Nat) (ps : List Proc) : Prop :=
  (runFuel fuel ps).completed = ps.length

/-- Sum of the burst times of the input descriptors. -/
def sumBursts (ps : List Proc) : Nat := (ps.map Proc.burst).sum

/-- Largest arrival time of the input descriptors (0 when empty). -/
def maxArrival (ps : List Proc) : Nat := (ps.map Proc.arrival).foldr max 0

/-- The fuel bound claimed by the spec: `sum of bursts + max arrival`. -/
def defaultFuel (ps : List Proc) : Nat := sumBursts ps + maxArrival ps

/-- `total_wt = sum(p.get('wt', 0) for p in procs)` (line 64). -/
def totalWT (l : List SimP) : Nat := (l.map (fun p => p.wt.getD 0)).sum

/-- `total_tat = sum(p.get('tat', 0) for p in procs)` (line 65). -/
def totalTAT (l : List SimP) : Nat := (l.map (fun p => p.tat.getD 0)).sum

/-- `srtf_scheduling` run with an explicit amount of fuel: the empty
input returns immediately (line 20-21); otherwise the result is the
final process list, the two averages and the gantt trace (line 69). -/
def srtfOut (fuel : Nat) (ps : List Proc) : List SimP × ℚ × ℚ × List String :=
  if ps.isEmpty then ([], 0, 0, [])
  else
    let s := runFuel fuel ps
    (s.procs, (totalWT s.procs : ℚ) / ps.length,
     (totalTAT s.procs : ℚ) / ps.length, s.gantt)

/-- `srtf_scheduling`, supplied with the spec's own fuel bound. -/
def srtf_scheduling (ps : List Proc) : List SimP × ℚ × ℚ × List String :=
  srtfOut (defaultFuel ps) ps

/-- The record list component of the result. -/
def srtfRecords (fuel : Nat) (ps : List Proc) : List SimP := (srtfOut fuel ps).1

/-- The trace component of the result. -/
def srtfTrace (fuel : Nat) (ps : List Proc) : List String := (srtfOut fuel ps).2.2.2

/-- Run-length compression loop of `build_segments` (`srtf_gui.py`
lines 41-49): extend the current `(cur, start, length)` segment while
the label repeats, otherwise close it; the final segment is closed
after the loop. -/
def segLoop : List String → Nat → String → Nat → Nat → List (String × Nat × Nat)
  | [], _, cur, start, len => [(cur, start, len)]
  | x :: xs, i, cur, start, len =>
    if x = cur then segLoop xs (i + 1) cur start (len + 1)
    else (cur, start, len) :: segLoop xs (i + 1) x i 1

/-- `build_segments(gantt)` (`srtf_gui.py` lines 34-50). -/
def build_segments : List String → List (String × Nat × Nat)
  | [] => []
  | g :: rest => segLoop rest 1 g 0 1

/-- Expansion of a segment list: each label repeated `length` times. -/
def expandSegs (segs : List (String × Nat × Nat)) : List String :=
  (segs.map (fun s => List.replicate s.2.2 s.1)).flatten

/-- Contiguity from a given position: each segment starts exactly where
told and the next one starts `length` later. -/
def segChain : Nat → List (String × Nat × Nat) → Prop
  | _, [] => True
  | pos, s :: rest => s.2.1 = pos ∧ segChain (pos + s.2.2) rest

theorem expandSegs_segLoop (xs : List String) :
    ∀ (i : Nat) (cur : String) (start len : Nat),
      expandSegs (segLoop xs i cur start len) = List.replicate len cur ++ xs := by
  induction xs with
  | nil =>
    intro i cur start len
    simp [segLoop, expandSegs]
  | cons x xs ih =>
    intro i cur start len
    by_cases hx : x = cur
    · subst hx
      rw [segLoop, if_pos rfl, ih, List.replicate_succ', List.append_assoc]
      simp
    · rw [segLoop, if_neg hx]
      simp only [expandSegs, List.map_cons, List.flatten_cons]
      have := ih (i + 1) x i 1
      simp only [expandSegs] at this
      rw [this]
      simp

theorem segChain_segLoop (xs : List String) :
    ∀ (i : Nat) (cur : String) (start len : Nat), i = start + len →
      segChain start (segLoop xs i cur start len) := by
  induction xs with
  | nil =>
    intro i cur start len _
    exact ⟨rfl, trivial⟩
  | cons x xs ih =>
    intro i cur start len hi
    by_cases hx : x = cur
    · subst hx
      rw [segLoop, if_pos rfl]
      exact ih (i + 1) x start (len + 1) (by omega)
    · rw [segLoop, if_neg hx]
      refine ⟨rfl, ?_⟩
      have h := ih (i + 1) x i 1 rfl
      simpa [hi] using h

theorem pos_len_segLoop (xs : List String) :
    ∀ (i : Nat) (cur : String) (start len : Nat), 0 < len →
      ∀ s ∈ segLoop xs i cur start len, 0 < s.2.2 := by
  induction xs with
  | nil =>
    intro i cur start len hlen s hs
    simp [segLoop] at hs
    simp [hs, hlen]
  | cons x xs ih =>
    intro i cur start len hlen s hs
    by_cases hx : x = cur
    · subst hx
      rw [segLoop, if_pos rfl] at hs
      exact ih (i + 1) x start (len + 1) (by omega) s hs
    · rw [segLoop, if_neg hx] at hs
      rcases List.mem_cons.1 hs with h | h
      · simp [h, hlen]
      · exact ih (i + 1) x i 1 (by omega) s h

theorem segLoop_head (xs : List String) :
    ∀ (i : Nat) (cur : String) (start len : Nat),
      ∃ len2 rest, segLoop xs i cur start len = (cur, start, len2) :: rest := by
  induction xs with
  | nil =>
    intro i cur start len
    exact ⟨len, [], rfl⟩
  | cons x xs ih =>
    intro i cur start len
    by_cases hx : x = cur
    · subst hx
      rw [segLoop, if_pos rfl]
      exact ih (i + 1) x start (len + 1)
    · rw [segLoop, if_neg hx]
      exact ⟨len, segLoop xs (i + 1) x i 1, rfl⟩

theorem chain_ne_segLoop (xs : List String) :
    ∀ (i : Nat) (cur : String) (start len : Nat),
      (segLoop xs i cur start len).Chain' (fun a b => a.1 ≠ b.1) := by
  induction xs with
  | nil =>
    intro i cur start len
    simp [segLoop]
  | cons x xs ih =>
    intro i cur start len
    by_cases hx : x = cur
    · subst hx
      rw [segLoop, if_pos rfl]
      exact ih (i + 1) x start (len + 1)
    · rw [segLoop, if_neg hx]
      obtain ⟨len2, rest, heq⟩ := segLoop_head xs (i + 1) x i 1
      rw [heq]
      refine List.chain'_cons.2 ⟨fun h => hx h.symm, ?_⟩
      rw [← heq]
      exact ih (i + 1) x i 1

theorem segChain_le (segs : List (String × Nat × Nat)) :
    ∀ pos, segChain pos segs → ∀ b ∈ segs, pos ≤ b.2.1 := by
  induction segs with
  | nil => intro pos _ b hb; simp at hb
  | cons s rest ih =>
    intro pos hc b hb
    have hc1 : s.2.1 = pos := hc.1
    rcases List.mem_cons.1 hb with h | h
    · subst h; exact Nat.le_of_eq hc1.symm
    · exact Nat.le_trans (Nat.le_add_right pos s.2.2) (ih (pos + s.2.2) hc.2 b h)

theorem segChain_pairwise (segs : List (String × Nat × Nat)) :
    ∀ pos, segChain pos segs → (∀ s ∈ segs, 0 < s.2.2) →
      segs.Pairwise (fun a b => a.2.1 < b.2.1) := by
  induction segs with
  | nil => intro pos _ _; exact List.Pairwise.nil
  | cons s rest ih =>
    intro pos hc hpos
    refine List.Pairwise.cons ?_ (ih (pos + s.2.2) hc.2 fun q hq => hpos q (List.mem_cons_of_mem s hq))
    intro b hb
    have h1 : pos + s.2.2 ≤ b.2.1 := segChain_le rest (pos + s.2.2) hc.2 b hb
    have h2 : s.2.1 = pos := hc.1
    have h3 : 0 < s.2.2 := hpos s (List.mem_cons_self s rest)
    omega

/-- C4: `build_segments` produces a contiguous, ascending, positive-length,
maximal-run segmentation starting at 0 that expands back to the input,
and maps the empty trace to the empty segment list. -/
theorem build_segments_spec :
    (∀ g : List String,
      expandSegs (build_segments g) = g ∧
      segChain 0 (build_segments g) ∧
      (∀ s ∈ build_segments g, 0 < s.2.2) ∧
      (build_segments g).Pairwise (fun a b => a.2.1 < b.2.1) ∧
      (build_segments g).Chain' (fun a b => a.1 ≠ b.1)) ∧
    build_segments ([] : List String) = [] := by
  refine ⟨fun g => ?_, rfl⟩
  cases g with
  | nil =>
    refine ⟨rfl, trivial, ?_, List.Pairwise.nil, List.chain'_nil⟩
    intro s hs; simp [build_segments] at hs
  | cons x rest =>
    have he := expandSegs_segLoop rest 1 x 0 1
    have hc := segChain_segLoop rest 1 x 0 1 rfl
    have hp := pos_len_segLoop rest 1 x 0 1 Nat.one_pos
    have hch := chain_ne_segLoop rest 1 x 0 1
    refine ⟨?_, hc, hp, segChain_pairwise _ 0 hc hp, hch⟩
    rw [build_segments, he]
    simp

/-- C4 witness: the segment properties instantiated at a concrete
trace. -/
theorem build_segments_spec_witness :
    expandSegs (build_segments ["P1", "P1", "Idle", "P2"]) = ["P1", "P1", "Idle", "P2"] ∧
    segChain 0 (build_segments ["P1", "P1", "Idle", "P2"]) :=
  ⟨(build_segments_spec.1 ["P1", "P1", "Idle", "P2"]).1,
   (build_segments_spec.1 ["P1", "P1", "Idle", "P2"]).2.1⟩

/-- Recursive specification of the scan of lines 38-44: the position
and remaining burst of the entry finally selected from `l`, starting
with the running minimum `m` and no incumbent. -/
def selSpec (t : Nat) : Nat → List SimP → Option (Nat × Nat)
  | _, [] => none
  | m, p :: rest =>
    if p.arrival ≤ t ∧ 0 < p.rem ∧ p.rem < m then
      match selSpec t p.rem rest with
      | some kr => some (kr.1 + 1, kr.2)
      | none => some (0, p.rem)
    else
      match selSpec t m rest with
      | some kr => some (kr.1 + 1, kr.2)
      | none => none

theorem selectScan_eq_selSpec (t : Nat) (l : List SimP) :
    ∀ (i m : Nat) (idx : Option Nat),
      selectScan t l i m idx =
        (match selSpec t m l with
         | some kr => some (i + kr.1)
         | none => idx) := by
  induction l with
  | nil => intro i m idx; rfl
  | cons p rest ih =>
    intro i m idx
    by_cases h : p.arrival ≤ t ∧ 0 < p.rem ∧ p.rem < m
    · rw [selectScan, if_pos h, ih, selSpec, if_pos h]
      cases hs : selSpec t p.rem rest with
      | none => rfl
      | some kr =>
        have : i + 1 + kr.1 = i + (kr.1 + 1) := by omega
        simp [this]
    · rw [selectScan, if_neg h, ih, selSpec, if_neg h]
      cases hs : selSpec t m rest with
      | none => rfl
      | some kr =>
        have : i + 1 + kr.1 = i + (kr.1 + 1) := by omega
        simp [this]

theorem selSpec_none (t : Nat) (l : List SimP) :
    ∀ m, selSpec t m l = none →
      ∀ p ∈ l, ¬(p.arrival ≤ t ∧ 0 < p.rem ∧ p.rem < m) := by
  induction l with
  | nil => intro m _ p hp; simp at hp
  | cons q rest ih =>
    intro m hnone p hp
    by_cases h : q.arrival ≤ t ∧ 0 < q.rem ∧ q.rem < m
    · rw [selSpec, if_pos h] at hnone
      cases hs : selSpec t q.rem rest with
      | none => rw [hs] at hnone; exact absurd hnone (by simp)
      | some kr => rw [hs] at hnone; exact absurd hnone (by simp)
    · rw [selSpec, if_neg h] at hnone
      cases hs : selSpec t m rest with
      | some kr => rw [hs] at hnone; exact absurd hnone (by simp)
      | none =>
        rcases List.mem_cons.1 hp with hpq | hpr
        · subst hpq; exact h
        · exact ih m hs p hpr

theorem selSpec_some (t : Nat) (l : List SimP) :
    ∀ m k r, selSpec t m l = some (k, r) →
      ∃ h : k < l.length,
        (l.get ⟨k, h⟩).rem = r ∧ (l.get ⟨k, h⟩).arrival ≤ t ∧ 0 < r ∧ r < m ∧
        ∀ (j : Nat) (hj : j < l.length),
          (l.get ⟨j, hj⟩).arrival ≤ t → 0 < (l.get ⟨j, hj⟩).rem →
          (l.get ⟨j, hj⟩).rem < m →
            r ≤ (l.get ⟨j, hj⟩).rem ∧ (j < k → r < (l.get ⟨j, hj⟩).rem) := by
  induction l with
  | nil => intro m k r h; exact absurd h (by simp [selSpec])
  | cons p rest ih =>
    intro m k r hsel
    by_cases h : p.arrival ≤ t ∧ 0 < p.rem ∧ p.rem < m
    · rw [selSpec, if_pos h] at hsel
      cases hs : selSpec t p.rem rest with
      | some kr =>
        rw [hs] at hsel
        simp only [Option.some.injEq, Prod.mk.injEq] at hsel
        obtain ⟨hk, hr⟩ := hsel
        obtain ⟨hlt, hrem, harr, hr0, hrlt, hmin⟩ := ih p.rem kr.1 kr.2 (by rw [hs])
        subst hk; subst hr
        refine ⟨by simpa using Nat.succ_lt_succ hlt, by simpa using hrem,
          by simpa using harr, hr0, Nat.lt_trans hrlt h.2.2, ?_⟩
        intro j hj
        cases j with
        | zero =>
          intro _ _ _
          simp only [List.get]
          exact ⟨Nat.le_of_lt (hrem ▸ hrlt), fun _ => hrem ▸ hrlt⟩
        | succ j =>
          intro harrj hr0j hrltj
          simp only [List.get] at harrj hr0j hrltj ⊢
          have hj2 : j < rest.length := by simpa using Nat.lt_of_succ_lt_succ hj
          by_cases hcase : (rest.get ⟨j, hj2⟩).rem < p.rem
          · have := hmin j hj2 harrj hr0j hcase
            exact ⟨this.1, fun hlt2 => this.2 (Nat.lt_of_succ_lt_succ hlt2)⟩
          · have hge : p.rem ≤ (rest.get ⟨j, hj2⟩).rem := Nat.le_of_not_lt hcase
            have : kr.2 < (rest.get ⟨j, hj2⟩).rem := Nat.lt_of_lt_of_le hrlt hge
            exact ⟨Nat.le_of_lt this, fun _ => this⟩
      | none =>
        rw [hs] at hsel
        simp only [Option.some.injEq, Prod.mk.injEq] at hsel
        obtain ⟨hk, hr⟩ := hsel
        subst hk; subst hr
        refine ⟨by simp, rfl, h.1, h.2.1, h.2.2, ?_⟩
        intro j hj
        cases j with
        | zero => intro _ _ _; exact ⟨Nat.le_refl _, fun hcon => absurd hcon (Nat.not_lt_zero 0)⟩
        | succ j =>
          intro harrj hr0j _
          simp only [List.get] at harrj hr0j ⊢
          have hj2 : j < rest.length := by simpa using Nat.lt_of_succ_lt_succ hj
          have hnone := selSpec_none t rest p.rem hs (rest.get ⟨j, hj2⟩) (rest.get_mem _ _)
          have : ¬((rest.get ⟨j, hj2⟩).rem < p.rem) := fun hcon => hnone ⟨harrj, hr0j, hcon⟩
          exact ⟨Nat.le_of_not_lt this, fun hcon => absurd hcon (Nat.not_lt_zero _)⟩
    · rw [selSpec, if_neg h] at hsel
      cases hs : selSpec t m rest with
      | some kr =>
        rw [hs] at hsel
        simp only [Option.some.injEq, Prod.mk.injEq] at hsel
        obtain ⟨hk, hr⟩ := hsel
        obtain ⟨hlt, hrem, harr, hr0, hrlt, hmin⟩ := ih m kr.1 kr.2 (by rw [hs])
        subst hk; subst hr
        refine ⟨by simpa using Nat.succ_lt_succ hlt, by simpa using hrem,
          by simpa using harr, hr0, hrlt, ?_⟩
        intro j hj
        cases j with
        | zero =>
          intro harrj hr0j hrltj
          simp only [List.get] at harrj hr0j hrltj
          exact absurd ⟨harrj, hr0j, hrltj⟩ h
        | succ j =>
          intro harrj hr0j hrltj
          simp only [List.get] at harrj hr0j hrltj ⊢
          have hj2 : j < rest.length := by simpa using Nat.lt_of_succ_lt_succ hj
          have := hmin j hj2 harrj hr0j hrltj
          exact ⟨this.1, fun hlt2 => this.2 (Nat.lt_of_succ_lt_succ hlt2)⟩
      | none => rw [hs] at hsel; exact absurd hsel (by simp)

/-- The postcondition of the selection scan: the chosen index is in
range, runnable, below the sentinel, of minimal remaining burst among
runnable below-sentinel entries, and the earliest such index (ties are
broken towards the front of the list). -/
def selPost (s : SimState) (i : Nat) : Prop :=
  ∃ hlt : i < s.procs.length,
    (s.procs.get ⟨i, hlt⟩).arrival ≤ s.t ∧ 0 < (s.procs.get ⟨i, hlt⟩).rem ∧
    (s.procs.get ⟨i, hlt⟩).rem < 10 ^ 9 ∧
    ∀ (j : Nat) (hj : j < s.procs.length),
      (s.procs.get ⟨j, hj⟩).arrival ≤ s.t → 0 < (s.procs.get ⟨j, hj⟩).rem →
      (s.procs.get ⟨j, hj⟩).rem < 10 ^ 9 →
        (s.procs.get ⟨i, hlt⟩).rem ≤ (s.procs.get ⟨j, hj⟩).rem ∧
        ((s.procs.get ⟨j, hj⟩).rem = (s.procs.get ⟨i, hlt⟩).rem → i ≤ j)

theorem select_some_spec (s : SimState) (i : Nat) (h : select s = some i) :
    selPost s i := by
  rw [select, selectScan_eq_selSpec] at h
  cases hs : selSpec s.t (10 ^ 9) s.procs with
  | none => rw [hs] at h; exact absurd h (by simp)
  | some kr =>
    rw [hs] at h
    simp only [Option.some.injEq] at h
    obtain ⟨hlt, hrem, harr, hr0, hrlt, hmin⟩ := selSpec_some s.t s.procs (10 ^ 9) kr.1 kr.2 (by rw [hs])
    have hik : i = kr.1 := by omega
    subst hik
    refine ⟨hlt, harr, by omega, by omega, ?_⟩
    intro j hj hja hj0 hjs
    have hjmin := hmin j hj hja hj0 hjs
    constructor
    · omega
    · intro heq
      by_contra hcon
      have hji : j < kr.1 := by omega
      have hstrict := hjmin.2 hji
      omega

theorem select_none_spec (s : SimState) (h : select s = none) :
    ∀ p ∈ s.procs, ¬(p.arrival ≤ s.t ∧ 0 < p.rem ∧ p.rem < 10 ^ 9) := by
  rw [select, selectScan_eq_selSpec] at h
  cases hs : selSpec s.t (10 ^ 9) s.procs with
  | some kr => rw [hs] at h; exact absurd h (by simp)
  | none => exact selSpec_none s.t s.procs (10 ^ 9) hs

theorem set_get_self {α : Type _} : ∀ (l : List α) (i : Nat) (h : i < l.length),
    l.set i (l.get ⟨i, h⟩) = l
  | [], i, h => absurd h (by simp)
  | _ :: _, 0, _ => rfl
  | a :: l, i + 1, h => by
    simp only [List.set, List.get]
    rw [set_get_self l i (by simpa using Nat.lt_of_succ_lt_succ h)]

theorem map_core_set (l : List SimP) (i : Nat) (h : i < l.length) (q : SimP)
    (hq : SimP.core q = SimP.core (l.get ⟨i, h⟩)) :
    (l.set i q).map SimP.core = l.map SimP.core := by
  rw [List.map_set, hq]
  have h2 : i < (l.map SimP.core).length := by simpa using h
  have h3 : SimP.core (l.get ⟨i, h⟩) = (l.map SimP.core).get ⟨i, h2⟩ := by
    simp
  rw [h3, set_get_self]

/-- The selected entry read by the loop body equals the in-range list
element. -/
theorem getD_of_select (s : SimState) (i : Nat) (hlt : i < s.procs.length) :
    s.procs.getD i simPdefault = s.procs.get ⟨i, hlt⟩ := by
  rw [List.getD_eq_getElem s.procs simPdefault hlt]
  simp

/-- One loop iteration never changes any process's identifier, arrival
or burst fields (only `rem` and the metric keys). -/
theorem stepState_core (s : SimState) :
    (stepState s).procs.map SimP.core = s.procs.map SimP.core := by
  cases hsel : select s with
  | none => simp [stepState, hsel]
  | some i =>
    obtain ⟨hlt, -⟩ := select_some_spec s i hsel
    simp only [stepState, hsel]
    apply map_core_set s.procs i hlt
    rw [getD_of_select s i hlt]
    split <;> rfl

theorem stepState_length (s : SimState) :
    (stepState s).procs.length = s.procs.length := by
  have h := congrArg List.length (stepState_core s)
  simpa using h

theorem simLoop_core (fuel : Nat) (s : SimState) :
    (simLoop fuel s).procs.map SimP.core = s.procs.map SimP.core := by
  induction fuel generalizing s with
  | zero => rfl
  | succ n ih =>
    rw [simLoop]
    by_cases h : s.completed < s.procs.length
    · rw [if_pos h, ih, stepState_core]
    · rw [if_neg h]

theorem simLoop_length (fuel : Nat) (s : SimState) :
    (simLoop fuel s).procs.length = s.procs.length := by
  have h := congrArg List.length (simLoop_core fuel s)
  simpa using h

/-- The sorted process list is sorted by arrival time. -/
theorem initProcs_sorted (ps : List Proc) : List.Sorted arrLE (initProcs ps) :=
  List.sorted_insertionSort arrLE (ps.map procToSim)

/-- Stability of the arrival sort: the entries with any fixed arrival
time appear in exactly their original input order. -/
theorem initProcs_stable (ps : List Proc) (a : Nat) :
    (initProcs ps).filter (fun p => p.arrival == a) =
      (ps.map procToSim).filter (fun p => p.arrival == a) := by
  have hsub : List.Sublist ((ps.map procToSim).filter (fun p => p.arrival == a))
      (ps.map procToSim) :=
    List.filter_sublist (ps.map procToSim)
  have hpw : ((ps.map procToSim).filter (fun p => p.arrival == a)).Pairwise arrLE := by
    apply List.pairwise_of_forall_mem_list
    intro x hx y hy
    have hxa : x.arrival = a := by simpa using (List.mem_filter.1 hx).2
    have hya : y.arrival = a := by simpa using (List.mem_filter.1 hy).2
    show x.arrival ≤ y.arrival
    omega
  have h1 : List.Sublist ((ps.map procToSim).filter (fun p => p.arrival == a))
      (initProcs ps) :=
    List.sublist_insertionSort hpw hsub
  have hself : ((ps.map procToSim).filter (fun p => p.arrival == a)).filter
      (fun p => p.arrival == a) = (ps.map procToSim).filter (fun p => p.arrival == a) :=
    List.filter_eq_self.mpr fun b hb => (List.mem_filter.1 hb).2
  have h2 : List.Sublist ((ps.map procToSim).filter (fun p => p.arrival == a))
      ((initProcs ps).filter (fun p => p.arrival == a)) := by
    have := h1.filter (fun p => p.arrival == a)
    rwa [hself] at this
  have h3 : ((initProcs ps).filter (fun p => p.arrival == a)).length =
      ((ps.map procToSim).filter (fun p => p.arrival == a)).length :=
    (((List.perm_insertionSort arrLE (ps.map procToSim)).filter _)).length_eq
  exact (h2.eq_of_length h3.symm).symm

/-- A mid-simulation state used to witness the tie-break theorem: after
one tick of the C1 scenario, `P2` (remaining 4) must preempt `P1`
(remaining 7). -/
def tieWitnessState : SimState :=
  { procs := [⟨"P1", 0, 8, 7, none, none, none⟩, ⟨"P2", 1, 4, 4, none, none, none⟩],
    completed := 0, t := 1, gantt := ["P1"] }

/-- C2 counterexample: with two runnable processes tied at remaining
burst `10^9`, the scan's sentinel (`min_rem = 10**9`, strict `<`)
selects nobody, so tick 0 is `"Idle"` although the claim requires `P1`
to be selected. -/
theorem srtf_tiebreak_sentinel_cex :
    select (initState [⟨"P1", 0, 10 ^ 9⟩, ⟨"P2", 0, 10 ^ 9⟩]) = none ∧
    (initState [⟨"P1", 0, 10 ^ 9⟩, ⟨"P2", 0, 10 ^ 9⟩]).procs.map SimP.rem =
      [10 ^ 9, 10 ^ 9] ∧
    (initState [⟨"P1", 0, 10 ^ 9⟩, ⟨"P2", 0, 10 ^ 9⟩]).procs.map SimP.arrival = [0, 0] ∧
    (runFuel 1 [⟨"P1", 0, 10 ^ 9⟩, ⟨"P2", 0, 10 ^ 9⟩]).gantt = ["Idle"] := by
  constructor
  · rfl
  · exact ⟨rfl, rfl, rfl⟩

/-- C2 (amended with the sentinel proviso): whenever the scan selects,
it selects an in-range runnable entry with remaining burst below
`10^9`, minimal among all runnable below-sentinel entries, and the
earliest such entry of the list (so ties resolve to the front); the
simulated list is sorted by arrival, ties keeping the caller's input
order, and the loop body never reorders or relabels it; concretely the
equal-arrival tie `[{P1,0,3},{P2,0,3}]` yields trace
`[P1,P1,P1,P2,P2,P2]`. -/
theorem srtf_tiebreak_spec :
    (∀ (s : SimState) (i : Nat), select s = some i → selPost s i) ∧
    (∀ ps : List Proc, List.Sorted arrLE (initProcs ps) ∧
      ∀ a : Nat, (initProcs ps).filter (fun p => p.arrival == a) =
        (ps.map procToSim).filter (fun p => p.arrival == a)) ∧
    (∀ s : SimState, (stepState s).procs.map SimP.core = s.procs.map SimP.core) ∧
    srtfTrace (defaultFuel [⟨"P1", 0, 3⟩, ⟨"P2", 0, 3⟩]) [⟨"P1", 0, 3⟩, ⟨"P2", 0, 3⟩] =
      ["P1", "P1", "P1", "P2", "P2", "P2"] := by
  refine ⟨select_some_spec, fun ps => ⟨initProcs_sorted ps, initProcs_stable ps⟩,
    stepState_core, ?_⟩
  decide

/-- C2 witness: at the concrete mid-run state of the C1 scenario the
scan selects index 1 (`P2`, remaining 4 beats `P1`'s 7), and the
selection postcondition holds there. -/
theorem srtf_tiebreak_spec_witness :
    select tieWitnessState = some 1 ∧ selPost tieWitnessState 1 :=
  ⟨by decide, srtf_tiebreak_spec.1 tieWitnessState 1 (by decide)⟩

theorem simLoop_sentinel_stuck (fuel : Nat) :
    ∀ (t : Nat) (g : List String),
      simLoop fuel ⟨[procToSim ⟨"P1", 0, 10 ^ 9⟩], 0, t, g⟩ =
        ⟨[procToSim ⟨"P1", 0, 10 ^ 9⟩], 0, t + fuel, g ++ List.replicate fuel "Idle"⟩ := by
  induction fuel with
  | zero => intro t g; simp [simLoop]
  | succ n ih =>
    intro t g
    rw [simLoop]
    have hcond : (0 : Nat) < ([procToSim ⟨"P1", 0, 10 ^ 9⟩] : List SimP).length := by decide
    rw [if_pos hcond]
    have hsel : select ⟨[procToSim ⟨"P1", 0, 10 ^ 9⟩], 0, t, g⟩ = none := by
      show selectScan t [procToSim ⟨"P1", 0, 10 ^ 9⟩] 0 (10 ^ 9) none = none
      rw [selectScan, if_neg]
      · rfl
      · intro hcon
        exact absurd hcon.2.2 (by decide)
    have hstep : stepState ⟨[procToSim ⟨"P1", 0, 10 ^ 9⟩], 0, t, g⟩ =
        ⟨[procToSim ⟨"P1", 0, 10 ^ 9⟩], 0, t + 1, g ++ ["Idle"]⟩ := by
      rw [stepState]
      rw [hsel]
    rw [hstep, ih (t + 1) (g ++ ["Idle"])]
    have h1 : t + 1 + n = t + (n + 1) := by omega
    have h2 : (g ++ ["Idle"]) ++ List.replicate n "Idle" = g ++ List.replicate (n + 1) "Idle" := by
      rw [List.append_assoc, List.replicate_succ]
      rfl
    rw [h1, h2]

/-- C3: the code does not terminate on `[{P1, 0, 10**9}]` — a valid
input (arrival 0, positive burst).  Because `min_rem` starts at the
sentinel `10**9` and the comparison is strict, a remaining burst of
`10**9` is never selected, so for every fuel the loop has completed 0
of the 1 processes and has produced only `"Idle"` ticks; in particular
it has not stopped within the claimed `sum of bursts + max arrival =
10**9` bound. -/
theorem srtf_sentinel_divergence :
    ∀ fuel : Nat,
      (runFuel fuel [⟨"P1", 0, 10 ^ 9⟩]).completed = 0 ∧
      (runFuel fuel [⟨"P1", 0, 10 ^ 9⟩]).gantt = List.replicate fuel "Idle" ∧
      defaultFuel [⟨"P1", 0, 10 ^ 9⟩] = 10 ^ 9 := by
  intro fuel
  have hinit : initState [⟨"P1", 0, 10 ^ 9⟩] =
      ⟨[procToSim ⟨"P1", 0, 10 ^ 9⟩], 0, 0, []⟩ := rfl
  have h := simLoop_sentinel_stuck fuel 0 []
  rw [runFuel, hinit, h]
  exact ⟨rfl, by simp, rfl⟩

/-- Number of processes whose remaining burst has reached zero. -/
def zeroCount (l : List SimP) : Nat := l.countP (fun p => p.rem == 0)

/-- Sum of the remaining bursts. -/
def remSum (l : List SimP) : Nat := (l.map SimP.rem).sum

/-- Sum of the total bursts. -/
def burstSum (l : List SimP) : Nat := (l.map SimP.burst).sum

/-- Number of non-`"Idle"` entries of a trace. -/
def busyCount (g : List String) : Nat := g.countP (fun x => !(x == "Idle"))

/-- Default label for out-of-range trace reads. -/
def blankLabel : String := ""

theorem countP_set_add {α : Type _} (q : α → Bool) :
    ∀ (l : List α) (i : Nat) (h : i < l.length) (a : α),
      (l.set i a).countP q + (if q (l.get ⟨i, h⟩) then 1 else 0) =
        l.countP q + (if q a then 1 else 0)
  | [], i, h, a => absurd h (by simp)
  | x :: l, 0, _, a => by
    simp only [List.set, List.countP_cons, List.get]
    omega
  | x :: l, i + 1, h, a => by
    simp only [List.set, List.countP_cons, List.get]
    have := countP_set_add q l i (by simpa using Nat.lt_of_succ_lt_succ h) a
    omega

theorem sum_map_set_add {α : Type _} (f : α → Nat) :
    ∀ (l : List α) (i : Nat) (h : i < l.length) (a : α),
      ((l.set i a).map f).sum + f (l.get ⟨i, h⟩) = (l.map f).sum + f a
  | [], i, h, a => absurd h (by simp)
  | x :: l, 0, _, a => by
    simp only [List.set, List.map_cons, List.sum_cons, List.get]
    omega
  | x :: l, i + 1, h, a => by
    simp only [List.set, List.map_cons, List.sum_cons, List.get]
    have := sum_map_set_add f l i (by simpa using Nat.lt_of_succ_lt_succ h) a
    omega

theorem getD_append_left_str (l l2 : List String) (j : Nat) (h : j < l.length) (d : String) :
    (l ++ l2).getD j d = l.getD j d := by
  rw [List.getD_eq_getElem?_getD, List.getD_eq_getElem?_getD, List.getElem?_append_left h]

theorem getD_concat_self (l : List String) (a d : String) :
    (l ++ [a]).getD l.length d = a := by
  rw [List.getD_eq_getElem?_getD, List.getElem?_concat_length]
  rfl

theorem count_idle_partition (g : List String) :
    busyCount g + g.count "Idle" = g.length := by
  induction g with
  | nil => rfl
  | cons x g ih =>
    rw [busyCount, List.countP_cons, List.count_cons]
    rw [busyCount] at ih
    cases hx : (x == "Idle") <;> simp [hx] <;> omega

/-- The state change performed on the selected process: one unit of
work, and the metric keys on completion (lines 51-62). -/
def stepUpdate (p : SimP) (t : Nat) : SimP :=
  if p.rem - 1 = 0 then
    { p with rem := p.rem - 1, ct := some (t + 1),
             tat := some (t + 1 - p.arrival),
             wt := some (t + 1 - p.arrival - p.burst) }
  else
    { p with rem := p.rem - 1 }

theorem stepState_none_eq (s : SimState) (hsel : select s = none) :
    stepState s = { s with gantt := s.gantt ++ ["Idle"], t := s.t + 1 } := by
  rw [stepState, hsel]

theorem stepState_some_eq (s : SimState) (i : Nat) (hsel : select s = some i)
    (hlt : i < s.procs.length) :
    stepState s =
      { procs := s.procs.set i (stepUpdate (s.procs.get ⟨i, hlt⟩) s.t),
        completed := if (s.procs.get ⟨i, hlt⟩).rem - 1 = 0 then s.completed + 1 else s.completed,
        t := s.t + 1,
        gantt := s.gantt ++ [(s.procs.get ⟨i, hlt⟩).pid] } := by
  simp only [stepState, hsel]
  rw [getD_of_select s i hlt, stepUpdate]

theorem stepUpdate_pid (p : SimP) (t : Nat) : (stepUpdate p t).pid = p.pid := by
  rw [stepUpdate]; split <;> rfl

theorem stepUpdate_arrival (p : SimP) (t : Nat) : (stepUpdate p t).arrival = p.arrival := by
  rw [stepUpdate]; split <;> rfl

theorem stepUpdate_burst (p : SimP) (t : Nat) : (stepUpdate p t).burst = p.burst := by
  rw [stepUpdate]; split <;> rfl

theorem stepUpdate_rem (p : SimP) (t : Nat) : (stepUpdate p t).rem = p.rem - 1 := by
  rw [stepUpdate]; split <;> rfl

theorem stepUpdate_ct_pos (p : SimP) (t : Nat) (h : p.rem - 1 = 0) :
    (stepUpdate p t).ct = some (t + 1) := by rw [stepUpdate, if_pos h]

theorem stepUpdate_tat_pos (p : SimP) (t : Nat) (h : p.rem - 1 = 0) :
    (stepUpdate p t).tat = some (t + 1 - p.arrival) := by rw [stepUpdate, if_pos h]

theorem stepUpdate_wt_pos (p : SimP) (t : Nat) (h : p.rem - 1 = 0) :
    (stepUpdate p t).wt = some (t + 1 - p.arrival - p.burst) := by rw [stepUpdate, if_pos h]

theorem stepUpdate_ct_neg (p : SimP) (t : Nat) (h : ¬p.rem - 1 = 0) :
    (stepUpdate p t).ct = p.ct := by rw [stepUpdate, if_neg h]

theorem stepUpdate_tat_neg (p : SimP) (t : Nat) (h : ¬p.rem - 1 = 0) :
    (stepUpdate p t).tat = p.tat := by rw [stepUpdate, if_neg h]

theorem stepUpdate_wt_neg (p : SimP) (t : Nat) (h : ¬p.rem - 1 = 0) :
    (stepUpdate p t).wt = p.wt := by rw [stepUpdate, if_neg h]

/-- The loop invariant of the simulation: the `completed` counter
counts the finished processes, the trace length is the clock, remaining
bursts never exceed total bursts, a process with `e` executed units got
them no earlier than `arrival + e`, and the metric keys are set exactly
at completion with the recorded formulas. -/
structure SimInv (s : SimState) : Prop where
  compl : s.completed = zeroCount s.procs
  tlen : s.gantt.length = s.t
  remle : ∀ p ∈ s.procs, p.rem ≤ p.burst
  prog : ∀ p ∈ s.procs, p.rem < p.burst → p.arrival + (p.burst - p.rem) ≤ s.t
  ctSpec : ∀ p ∈ s.procs, ∀ c, p.ct = some c →
    p.rem = 0 ∧ p.arrival + p.burst ≤ c ∧ c ≤ s.t ∧
    p.tat = some (c - p.arrival) ∧ p.wt = some (c - p.arrival - p.burst)
  ctNone : ∀ p ∈ s.procs, p.ct = none → p.tat = none ∧ p.wt = none ∧ 0 < p.rem

theorem stepState_SimInv (s : SimState) (hinv : SimInv s) : SimInv (stepState s) := by
  cases hsel : select s with
  | none =>
    rw [stepState_none_eq s hsel]
    refine ⟨hinv.compl, by simp [hinv.tlen], hinv.remle,
      fun p hp h => Nat.le_succ_of_le (hinv.prog p hp h), ?_, hinv.ctNone⟩
    intro p hp c hc
    obtain ⟨h1, h2, h3, h4, h5⟩ := hinv.ctSpec p hp c hc
    exact ⟨h1, h2, Nat.le_succ_of_le h3, h4, h5⟩
  | some i =>
    obtain ⟨hlt, harr, hrem0, hsent, hmin⟩ := select_some_spec s i hsel
    rw [stepState_some_eq s i hsel hlt]
    set p := s.procs.get ⟨i, hlt⟩ with hpdef
    have hpmem : p ∈ s.procs := List.get_mem s.procs i hlt
    have hple : p.rem ≤ p.burst := hinv.remle p hpmem
    constructor
    -- compl
    · show (if p.rem - 1 = 0 then s.completed + 1 else s.completed) =
        List.countP (fun x => x.rem == 0) (s.procs.set i (stepUpdate p s.t))
      have h1 := countP_set_add (fun x => x.rem == 0) s.procs i hlt (stepUpdate p s.t)
      simp only [← hpdef, stepUpdate_rem] at h1
      have hb1 : (p.rem == 0) = false := by
        rw [beq_eq_false_iff_ne]
        omega
      simp only [hb1] at h1
      have hcomp : s.completed = List.countP (fun x => x.rem == 0) s.procs := hinv.compl
      by_cases hz : p.rem - 1 = 0
      · have hb2 : ((p.rem - 1 == 0) : Bool) = true := by rw [beq_iff_eq]; exact hz
        simp only [hb2] at h1
        rw [if_pos hz]
        simp at h1
        omega
      · have hb2 : ((p.rem - 1 == 0) : Bool) = false := by rw [beq_eq_false_iff_ne]; exact hz
        simp only [hb2] at h1
        rw [if_neg hz]
        simp at h1
        omega
    -- tlen
    · show (s.gantt ++ [p.pid]).length = s.t + 1
      simp [hinv.tlen]
    -- remle
    · intro q hq
      rcases List.mem_or_eq_of_mem_set hq with hold | hnew
      · exact hinv.remle q hold
      · subst hnew
        rw [stepUpdate_rem, stepUpdate_burst]
        omega
    -- prog
    · intro q hq hlt2
      show q.arrival + (q.burst - q.rem) ≤ s.t + 1
      rcases List.mem_or_eq_of_mem_set hq with hold | hnew
      · exact Nat.le_succ_of_le (hinv.prog q hold hlt2)
      · subst hnew
        rw [stepUpdate_rem, stepUpdate_burst] at hlt2
        rw [stepUpdate_rem, stepUpdate_burst, stepUpdate_arrival]
        by_cases hcase : p.rem < p.burst
        · have := hinv.prog p hpmem hcase
          omega
        · have heq : p.rem = p.burst := by omega
          omega
    -- ctSpec
    · intro q hq c hc
      rcases List.mem_or_eq_of_mem_set hq with hold | hnew
      · obtain ⟨h1, h2, h3, h4, h5⟩ := hinv.ctSpec q hold c hc
        exact ⟨h1, h2, Nat.le_succ_of_le h3, h4, h5⟩
      · subst hnew
        by_cases hz : p.rem - 1 = 0
        · rw [stepUpdate_ct_pos p s.t hz] at hc
          have hcval : c = s.t + 1 := by
            have := Option.some.inj hc
            omega
          subst hcval
          refine ⟨by rw [stepUpdate_rem]; exact hz, ?_, Nat.le_refl _, ?_, ?_⟩
          · rw [stepUpdate_arrival, stepUpdate_burst]
            by_cases hcase : p.rem < p.burst
            · have := hinv.prog p hpmem hcase
              omega
            · have heq : p.rem = p.burst := by omega
              omega
          · rw [stepUpdate_tat_pos p s.t hz, stepUpdate_arrival]
          · rw [stepUpdate_wt_pos p s.t hz, stepUpdate_arrival, stepUpdate_burst]
        · rw [stepUpdate_ct_neg p s.t hz] at hc
          have := (hinv.ctSpec p hpmem c hc).1
          omega
    -- ctNone
    · intro q hq hc
      rcases List.mem_or_eq_of_mem_set hq with hold | hnew
      · exact hinv.ctNone q hold hc
      · subst hnew
        by_cases hz : p.rem - 1 = 0
        · rw [stepUpdate_ct_pos p s.t hz] at hc
          exact absurd hc (by simp)
        · rw [stepUpdate_ct_neg p s.t hz] at hc
          obtain ⟨h1, h2, h3⟩ := hinv.ctNone p hpmem hc
          refine ⟨?_, ?_, ?_⟩
          · rw [stepUpdate_tat_neg p s.t hz]; exact h1
          · rw [stepUpdate_wt_neg p s.t hz]; exact h2
          · rw [stepUpdate_rem]; omega

theorem initState_SimInv (ps : List Proc) (hb : ∀ q ∈ ps, 0 < q.burst) :
    SimInv (initState ps) := by
  have hmem : ∀ p ∈ initProcs ps, ∃ q ∈ ps, p = procToSim q := by
    intro p hp
    have h1 : p ∈ ps.map procToSim := (List.mem_insertionSort arrLE).1 hp
    obtain ⟨q, hq, hqe⟩ := List.mem_map.1 h1
    exact ⟨q, hq, hqe.symm⟩
  constructor
  · show 0 = zeroCount (initProcs ps)
    rw [zeroCount]
    symm
    rw [List.countP_eq_zero]
    intro p hp
    obtain ⟨q, hq, hqe⟩ := hmem p hp
    subst hqe
    have := hb q hq
    simp [procToSim]
    omega
  · rfl
  · intro p hp
    obtain ⟨q, hq, hqe⟩ := hmem p hp
    subst hqe
    exact Nat.le_refl _
  · intro p hp hlt
    obtain ⟨q, hq, hqe⟩ := hmem p hp
    subst hqe
    exact absurd hlt (by simp [procToSim])
  · intro p hp c hc
    obtain ⟨q, hq, hqe⟩ := hmem p hp
    subst hqe
    exact absurd hc (by simp [procToSim])
  · intro p hp _
    obtain ⟨q, hq, hqe⟩ := hmem p hp
    subst hqe
    exact ⟨rfl, rfl, hb q hq⟩

theorem simLoop_SimInv (fuel : Nat) (s : SimState) (h : SimInv s) :
    SimInv (simLoop fuel s) := by
  induction fuel generalizing s with
  | zero => exact h
  | succ n ih =>
    rw [simLoop]
    by_cases hc : s.completed < s.procs.length
    · rw [if_pos hc]
      exact ih (stepState s) (stepState_SimInv s h)
    · rw [if_neg hc]
      exact h

theorem stepUpdate_core (p : SimP) (t : Nat) : SimP.core (stepUpdate p t) = SimP.core p := by
  rw [stepUpdate]; split <;> rfl

theorem burstSum_eq_of_core (l l2 : List SimP) (h : l.map SimP.core = l2.map SimP.core) :
    burstSum l = burstSum l2 := by
  have h1 : (l.map SimP.core).map (fun c => c.2.2) = (l2.map SimP.core).map (fun c => c.2.2) := by
    rw [h]
  rw [List.map_map, List.map_map] at h1
  have h2 : ((fun c : String × Nat × Nat => c.2.2) ∘ SimP.core) = SimP.burst := by
    funext p; rfl
  rw [h2] at h1
  rw [burstSum, burstSum, h1]

theorem pidMap_eq_of_core (l l2 : List SimP) (h : l.map SimP.core = l2.map SimP.core) :
    l.map SimP.pid = l2.map SimP.pid := by
  have h1 : (l.map SimP.core).map (fun c => c.1) = (l2.map SimP.core).map (fun c => c.1) := by
    rw [h]
  rw [List.map_map, List.map_map] at h1
  have h2 : ((fun c : String × Nat × Nat => c.1) ∘ SimP.core) = SimP.pid := by
    funext p; rfl
  rwa [h2] at h1

theorem arrivalMap_eq_of_core (l l2 : List SimP) (h : l.map SimP.core = l2.map SimP.core) :
    l.map SimP.arrival = l2.map SimP.arrival := by
  have h1 : (l.map SimP.core).map (fun c => c.2.1) = (l2.map SimP.core).map (fun c => c.2.1) := by
    rw [h]
  rw [List.map_map, List.map_map] at h1
  have h2 : ((fun c : String × Nat × Nat => c.2.1) ∘ SimP.core) = SimP.arrival := by
    funext p; rfl
  rwa [h2] at h1

/-- The conservation invariant: no process is labelled like the idle
marker, and the busy trace entries account exactly for the executed
work `total bursts - remaining bursts`. -/
structure GanttInv (s : SimState) : Prop where
  noIdle : ∀ p ∈ s.procs, p.pid ≠ "Idle"
  busy : busyCount s.gantt + remSum s.procs = burstSum s.procs

theorem stepState_GanttInv (s : SimState) (hg : GanttInv s) : GanttInv (stepState s) := by
  cases hsel : select s with
  | none =>
    rw [stepState_none_eq s hsel]
    refine ⟨hg.noIdle, ?_⟩
    show busyCount (s.gantt ++ ["Idle"]) + remSum s.procs = burstSum s.procs
    have h1 : busyCount (s.gantt ++ ["Idle"]) = busyCount s.gantt := by
      rw [busyCount, List.countP_append]
      simp [busyCount]
    rw [h1]
    exact hg.busy
  | some i =>
    obtain ⟨hlt, harr, hrem0, hsent, hmin⟩ := select_some_spec s i hsel
    rw [stepState_some_eq s i hsel hlt]
    set p := s.procs.get ⟨i, hlt⟩ with hpdef
    have hpmem : p ∈ s.procs := List.get_mem s.procs i hlt
    have hpid : p.pid ≠ "Idle" := hg.noIdle p hpmem
    constructor
    · intro q hq
      rcases List.mem_or_eq_of_mem_set hq with hold | hnew
      · exact hg.noIdle q hold
      · subst hnew
        rw [stepUpdate_pid]
        exact hpid
    · show busyCount (s.gantt ++ [p.pid]) + remSum (s.procs.set i (stepUpdate p s.t)) =
        burstSum (s.procs.set i (stepUpdate p s.t))
      have h1 : busyCount (s.gantt ++ [p.pid]) = busyCount s.gantt + 1 := by
        rw [busyCount, List.countP_append]
        have : ((p.pid == "Idle") : Bool) = false := by
          rw [beq_eq_false_iff_ne]; exact hpid
        simp [busyCount, this]
      have hcore : (s.procs.set i (stepUpdate p s.t)).map SimP.core = s.procs.map SimP.core :=
        map_core_set s.procs i hlt _ (by rw [stepUpdate_core])
      have h2 : burstSum (s.procs.set i (stepUpdate p s.t)) = burstSum s.procs :=
        burstSum_eq_of_core _ _ hcore
      have h3 := sum_map_set_add SimP.rem s.procs i hlt (stepUpdate p s.t)
      simp only [← hpdef, stepUpdate_rem] at h3
      have h4 := hg.busy
      rw [h1, h2]
      rw [remSum] at *
      omega

theorem initState_GanttInv (ps : List Proc) (hn : ∀ q ∈ ps, q.pid ≠ "Idle") :
    GanttInv (initState ps) := by
  have hmem : ∀ p ∈ initProcs ps, ∃ q ∈ ps, p = procToSim q := by
    intro p hp
    have h1 : p ∈ ps.map procToSim := (List.mem_insertionSort arrLE).1 hp
    obtain ⟨q, hq, hqe⟩ := List.mem_map.1 h1
    exact ⟨q, hq, hqe.symm⟩
  constructor
  · intro p hp
    obtain ⟨q, hq, hqe⟩ := hmem p hp
    subst hqe
    exact hn q hq
  · show busyCount [] + remSum (initProcs ps) = burstSum (initProcs ps)
    have h1 : (initProcs ps).map SimP.rem = (initProcs ps).map SimP.burst := by
      apply List.map_congr_left
      intro p hp
      obtain ⟨q, hq, hqe⟩ := hmem p hp
      subst hqe
      rfl
    rw [busyCount, remSum, burstSum, h1]
    simp

theorem simLoop_GanttInv (fuel : Nat) (s : SimState) (h : GanttInv s) :
    GanttInv (simLoop fuel s) := by
  induction fuel generalizing s with
  | zero => exact h
  | succ n ih =>
    rw [simLoop]
    by_cases hc : s.completed < s.procs.length
    · rw [if_pos hc]
      exact ih (stepState s) (stepState_GanttInv s h)
    · rw [if_neg hc]
      exact h

/-- Every descriptor has a positive burst (the claims' precondition). -/
def validBursts (ps : List Proc) : Prop := ∀ q ∈ ps, 0 < q.burst

/-- No descriptor uses the distinguished idle marker as its identifier. -/
def noIdlePid (ps : List Proc) : Prop := ∀ q ∈ ps, q.pid ≠ "Idle"

/-- The input identifiers are pairwise distinct (required by the spec's
data model). -/
def nodupPids (ps : List Proc) : Prop := (ps.map Proc.pid).Nodup

instance (fuel : Nat) (ps : List Proc) : Decidable (srtfTerminates fuel ps) :=
  inferInstanceAs (Decidable ((runFuel fuel ps).completed = ps.length))

instance (ps : List Proc) : Decidable (validBursts ps) :=
  inferInstanceAs (Decidable (∀ q ∈ ps, 0 < q.burst))

instance (ps : List Proc) : Decidable (noIdlePid ps) :=
  inferInstanceAs (Decidable (∀ q ∈ ps, q.pid ≠ "Idle"))

instance (ps : List Proc) : Decidable (nodupPids ps) :=
  inferInstanceAs (Decidable (ps.map Proc.pid).Nodup)

theorem finished_all (s : SimState) (hinv : SimInv s) (hdone : s.completed = s.procs.length) :
    ∀ p ∈ s.procs, p.rem = 0 ∧ ∃ c, p.ct = some c := by
  have hzc : zeroCount s.procs = s.procs.length := by rw [← hinv.compl, hdone]
  have hall := List.countP_eq_length.1 hzc
  intro p hp
  have hrem : p.rem = 0 := by have := hall p hp; simpa using this
  refine ⟨hrem, ?_⟩
  cases hct : p.ct with
  | some c => exact ⟨c, rfl⟩
  | none =>
    have := (hinv.ctNone p hp hct).2.2
    omega

theorem initProcs_length (ps : List Proc) : (initProcs ps).length = ps.length := by
  rw [initProcs, List.length_insertionSort, List.length_map]

theorem runFuel_length (fuel : Nat) (ps : List Proc) :
    (runFuel fuel ps).procs.length = ps.length := by
  rw [runFuel, simLoop_length]
  exact initProcs_length ps

theorem srtfTrace_of_ne (fuel : Nat) (ps : List Proc) (h : ps ≠ []) :
    srtfTrace fuel ps = (runFuel fuel ps).gantt := by
  rw [srtfTrace, srtfOut, if_neg (by simpa [List.isEmpty_iff] using h)]

theorem srtfRecords_of_ne (fuel : Nat) (ps : List Proc) (h : ps ≠ []) :
    srtfRecords fuel ps = (runFuel fuel ps).procs := by
  rw [srtfRecords, srtfOut, if_neg (by simpa [List.isEmpty_iff] using h)]

theorem burstSum_initProcs (ps : List Proc) : burstSum (initProcs ps) = sumBursts ps := by
  rw [burstSum]
  have hperm : List.Perm ((initProcs ps).map SimP.burst) ((ps.map procToSim).map SimP.burst) :=
    (List.perm_insertionSort arrLE (ps.map procToSim)).map SimP.burst
  rw [hperm.sum_eq, List.map_map]
  have h2 : (SimP.burst ∘ procToSim) = Proc.burst := by funext q; rfl
  rw [h2, sumBursts]

/-- C5 (amended with the no-`"Idle"`-identifier proviso): whenever the
loop exits, the busy entries of the trace account for all burst units,
so `sum of bursts + idle entries = trace length`. -/
theorem srtf_conservation (ps : List Proc) (fuel : Nat)
    (hb : validBursts ps) (hn : noIdlePid ps) (ht : srtfTerminates fuel ps) :
    sumBursts ps + (srtfTrace fuel ps).count "Idle" = (srtfTrace fuel ps).length := by
  by_cases hemp : ps = []
  · subst hemp; rfl
  · have htr := srtfTrace_of_ne fuel ps hemp
    have hinv : SimInv (runFuel fuel ps) := simLoop_SimInv fuel _ (initState_SimInv ps hb)
    have hg : GanttInv (runFuel fuel ps) := simLoop_GanttInv fuel _ (initState_GanttInv ps hn)
    have hdone : (runFuel fuel ps).completed = (runFuel fuel ps).procs.length := by
      rw [runFuel_length]
      exact ht
    have hfin := finished_all (runFuel fuel ps) hinv hdone
    have hremsum : remSum (runFuel fuel ps).procs = 0 := by
      rw [remSum]
      apply List.sum_eq_zero
      intro x hx
      obtain ⟨p, hp, hpe⟩ := List.mem_map.1 hx
      rw [← hpe]
      exact (hfin p hp).1
    have hbsum : burstSum (runFuel fuel ps).procs = sumBursts ps := by
      have hcore : (runFuel fuel ps).procs.map SimP.core = (initProcs ps).map SimP.core := by
        rw [runFuel]
        exact simLoop_core fuel (initState ps)
      rw [burstSum_eq_of_core _ _ hcore, burstSum_initProcs]
    have hbusy := hg.busy
    have hpart := count_idle_partition (runFuel fuel ps).gantt
    rw [htr]
    omega

/-- C5 counterexample: the descriptor list `[{pid:"Idle", arrival:1,
burst:1}]` meets the claim's stated preconditions (arrival 1 ≥ 0, burst
1 > 0) and the call returns, but its trace `["Idle", "Idle"]` contains
two `"Idle"` entries (one idle tick plus the process labelled
`"Idle"`), so `sum of bursts + idle entries = 3 ≠ 2 = trace length`. -/
theorem srtf_conservation_cex :
    srtfTerminates (defaultFuel [⟨"Idle", 1, 1⟩]) [⟨"Idle", 1, 1⟩] ∧
    srtfTrace (defaultFuel [⟨"Idle", 1, 1⟩]) [⟨"Idle", 1, 1⟩] = ["Idle", "Idle"] ∧
    sumBursts [⟨"Idle", 1, 1⟩] +
        (srtfTrace (defaultFuel [⟨"Idle", 1, 1⟩]) [⟨"Idle", 1, 1⟩]).count "Idle" ≠
      (srtfTrace (defaultFuel [⟨"Idle", 1, 1⟩]) [⟨"Idle", 1, 1⟩]).length := by
  refine ⟨by decide, by decide, by decide⟩

/-- C5 witness: the amended conservation equation instantiated at the
C1 scenario. -/
theorem srtf_conservation_witness :
    validBursts [⟨"P1", 0, 8⟩, ⟨"P2", 1, 4⟩] ∧
    noIdlePid [⟨"P1", 0, 8⟩, ⟨"P2", 1, 4⟩] ∧
    srtfTerminates 13 [⟨"P1", 0, 8⟩, ⟨"P2", 1, 4⟩] ∧
    sumBursts [⟨"P1", 0, 8⟩, ⟨"P2", 1, 4⟩] +
        (srtfTrace 13 [⟨"P1", 0, 8⟩, ⟨"P2", 1, 4⟩]).count "Idle" =
      (srtfTrace 13 [⟨"P1", 0, 8⟩, ⟨"P2", 1, 4⟩]).length :=
  ⟨by decide, by decide, by decide,
   srtf_conservation [⟨"P1", 0, 8⟩, ⟨"P2", 1, 4⟩] 13 (by decide) (by decide) (by decide)⟩

/-- Every returned record is completed with completion time at least
`arrival + burst` and at most the trace length. -/
def recordsBounded (fuel : Nat) (ps : List Proc) : Prop :=
  ∀ p ∈ srtfRecords fuel ps,
    ∃ c, p.ct = some c ∧ p.arrival + p.burst ≤ c ∧ c ≤ (srtfTrace fuel ps).length

/-- C6: for positive-burst inputs, when the loop exits every record's
completion time satisfies `arrival + burst ≤ CT ≤ trace length`. -/
theorem srtf_completion_bounds (ps : List Proc) (fuel : Nat)
    (hb : validBursts ps) (ht : srtfTerminates fuel ps) : recordsBounded fuel ps := by
  by_cases hemp : ps = []
  · subst hemp
    intro p hp
    exact absurd hp (by simp [srtfRecords, srtfOut])
  · have hrec := srtfRecords_of_ne fuel ps hemp
    have htr := srtfTrace_of_ne fuel ps hemp
    have hinv : SimInv (runFuel fuel ps) := simLoop_SimInv fuel _ (initState_SimInv ps hb)
    have hdone : (runFuel fuel ps).completed = (runFuel fuel ps).procs.length := by
      rw [runFuel_length]
      exact ht
    have hfin := finished_all (runFuel fuel ps) hinv hdone
    intro p hp
    rw [hrec] at hp
    obtain ⟨hrem, c, hct⟩ := hfin p hp
    obtain ⟨-, h2, h3, -, -⟩ := hinv.ctSpec p hp c hct
    have htl := hinv.tlen
    refine ⟨c, hct, h2, ?_⟩
    rw [htr]
    omega

/-- C6 witness: completion bounds instantiated at the C1 scenario. -/
theorem srtf_completion_bounds_witness :
    validBursts [⟨"P1", 0, 8⟩, ⟨"P2", 1, 4⟩] ∧
    srtfTerminates 13 [⟨"P1", 0, 8⟩, ⟨"P2", 1, 4⟩] ∧
    recordsBounded 13 [⟨"P1", 0, 8⟩, ⟨"P2", 1, 4⟩] :=
  ⟨by decide, by decide,
   srtf_completion_bounds [⟨"P1", 0, 8⟩, ⟨"P2", 1, 4⟩] 13 (by decide) (by decide)⟩

/-- The identifier invariant: identifiers are pairwise distinct, none is
the idle marker, and each recorded completion time `c` points (1-based)
at the last trace entry carrying that identifier. -/
structure PidInv (s : SimState) : Prop where
  nodup : (s.procs.map SimP.pid).Nodup
  noIdle : ∀ p ∈ s.procs, p.pid ≠ "Idle"
  lastocc : ∀ p ∈ s.procs, ∀ c, p.ct = some c →
    0 < c ∧ c - 1 < s.gantt.length ∧ s.gantt.getD (c - 1) blankLabel = p.pid ∧
    ∀ j, c ≤ j → j < s.gantt.length → s.gantt.getD j blankLabel ≠ p.pid

theorem stepState_PidInv (s : SimState) (hinv : SimInv s) (hpi : PidInv s) :
    PidInv (stepState s) := by
  cases hsel : select s with
  | none =>
    rw [stepState_none_eq s hsel]
    refine ⟨hpi.nodup, hpi.noIdle, ?_⟩
    intro p hp c hc
    obtain ⟨h0, h1, h2, h3⟩ := hpi.lastocc p hp c hc
    refine ⟨h0, ?_, ?_, ?_⟩
    · show c - 1 < (s.gantt ++ ["Idle"]).length
      simp
      omega
    · show (s.gantt ++ ["Idle"]).getD (c - 1) blankLabel = p.pid
      rw [getD_append_left_str _ _ _ h1]
      exact h2
    · intro j hj1 hj2
      show (s.gantt ++ ["Idle"]).getD j blankLabel ≠ p.pid
      have hj3 : j < s.gantt.length + 1 := by simpa using hj2
      by_cases hcase : j < s.gantt.length
      · rw [getD_append_left_str _ _ _ hcase]
        exact h3 j hj1 hcase
      · have hjeq : j = s.gantt.length := by omega
        subst hjeq
        rw [getD_concat_self]
        exact fun hcontra => hpi.noIdle p hp hcontra.symm
  | some i =>
    obtain ⟨hlt, harr, hrem0, hsent, hmin⟩ := select_some_spec s i hsel
    rw [stepState_some_eq s i hsel hlt]
    set p := s.procs.get ⟨i, hlt⟩ with hpdef
    have hpmem : p ∈ s.procs := List.get_mem s.procs i hlt
    have hcore : (s.procs.set i (stepUpdate p s.t)).map SimP.core = s.procs.map SimP.core :=
      map_core_set s.procs i hlt _ (by rw [stepUpdate_core])
    have hpidmap : (s.procs.set i (stepUpdate p s.t)).map SimP.pid = s.procs.map SimP.pid :=
      pidMap_eq_of_core _ _ hcore
    have hinj := List.inj_on_of_nodup_map hpi.nodup
    constructor
    · show ((s.procs.set i (stepUpdate p s.t)).map SimP.pid).Nodup
      rw [hpidmap]
      exact hpi.nodup
    · intro q hq
      rcases List.mem_or_eq_of_mem_set hq with hold | hnew
      · exact hpi.noIdle q hold
      · subst hnew
        rw [stepUpdate_pid]
        exact hpi.noIdle p hpmem
    · intro q hq c hc
      rcases List.mem_or_eq_of_mem_set hq with hold | hnew
      · obtain ⟨h0, h1, h2, h3⟩ := hpi.lastocc q hold c hc
        have hq0 : q.rem = 0 := (hinv.ctSpec q hold c hc).1
        refine ⟨h0, ?_, ?_, ?_⟩
        · show c - 1 < (s.gantt ++ [p.pid]).length
          simp
          omega
        · show (s.gantt ++ [p.pid]).getD (c - 1) blankLabel = q.pid
          rw [getD_append_left_str _ _ _ h1]
          exact h2
        · intro j hj1 hj2
          show (s.gantt ++ [p.pid]).getD j blankLabel ≠ q.pid
          have hj3 : j < s.gantt.length + 1 := by simpa using hj2
          by_cases hcase : j < s.gantt.length
          · rw [getD_append_left_str _ _ _ hcase]
            exact h3 j hj1 hcase
          · have hjeq : j = s.gantt.length := by omega
            subst hjeq
            rw [getD_concat_self]
            intro hcontra
            have hqp : p = q := hinj hpmem hold hcontra
            rw [hqp] at hrem0
            omega
      · subst hnew
        by_cases hz : p.rem - 1 = 0
        · rw [stepUpdate_ct_pos p s.t hz] at hc
          have hcval : c = s.t + 1 := by
            have := Option.some.inj hc
            omega
          subst hcval
          have htl := hinv.tlen
          refine ⟨by omega, ?_, ?_, ?_⟩
          · show s.t + 1 - 1 < (s.gantt ++ [p.pid]).length
            simp
            omega
          · show (s.gantt ++ [p.pid]).getD (s.t + 1 - 1) blankLabel = (stepUpdate p s.t).pid
            have hidx : s.t + 1 - 1 = s.gantt.length := by omega
            rw [hidx, getD_concat_self, stepUpdate_pid]
          · intro j hj1 hj2
            have hlen : (s.gantt ++ [p.pid]).length = s.gantt.length + 1 := by simp
            rw [hlen] at hj2
            omega
        · rw [stepUpdate_ct_neg p s.t hz] at hc
          have := (hinv.ctSpec p hpmem c hc).1
          omega

theorem initState_PidInv (ps : List Proc) (hd : nodupPids ps) (hn : noIdlePid ps) :
    PidInv (initState ps) := by
  have hmem : ∀ p ∈ initProcs ps, ∃ q ∈ ps, p = procToSim q := by
    intro p hp
    have h1 : p ∈ ps.map procToSim := (List.mem_insertionSort arrLE).1 hp
    obtain ⟨q, hq, hqe⟩ := List.mem_map.1 h1
    exact ⟨q, hq, hqe.symm⟩
  constructor
  · show ((initProcs ps).map SimP.pid).Nodup
    have hperm : List.Perm ((initProcs ps).map SimP.pid) ((ps.map procToSim).map SimP.pid) :=
      (List.perm_insertionSort arrLE (ps.map procToSim)).map SimP.pid
    rw [hperm.nodup_iff, List.map_map]
    have h2 : (SimP.pid ∘ procToSim) = Proc.pid := by funext q; rfl
    rw [h2]
    exact hd
  · intro p hp
    obtain ⟨q, hq, hqe⟩ := hmem p hp
    subst hqe
    exact hn q hq
  · intro p hp c hc
    obtain ⟨q, hq, hqe⟩ := hmem p hp
    subst hqe
    exact absurd hc (by simp [procToSim])

theorem simLoop_PidInv (fuel : Nat) (s : SimState) (hinv : SimInv s) (hpi : PidInv s) :
    PidInv (simLoop fuel s) := by
  induction fuel generalizing s with
  | zero => exact hpi
  | succ n ih =>
    rw [simLoop]
    by_cases hc : s.completed < s.procs.length
    · rw [if_pos hc]
      exact ih (stepState s) (stepState_SimInv s hinv) (stepState_PidInv s hinv hpi)
    · rw [if_neg hc]
      exact hpi

/-- Every returned record is completed at a time `c` such that the
trace entry at (0-based) index `c-1` is its identifier, no later trace
entry is, `TAT = CT - arrival` and `WT` is `TAT - burst` clamped below
at zero (truncated `Nat` subtraction is exactly that clamp). -/
def recordsMetrics (fuel : Nat) (ps : List Proc) : Prop :=
  ∀ p ∈ srtfRecords fuel ps,
    ∃ c, p.ct = some c ∧ 0 < c ∧ c - 1 < (srtfTrace fuel ps).length ∧
      (srtfTrace fuel ps).getD (c - 1) blankLabel = p.pid ∧
      (∀ j, c ≤ j → j < (srtfTrace fuel ps).length →
        (srtfTrace fuel ps).getD j blankLabel ≠ p.pid) ∧
      p.tat = some (c - p.arrival) ∧ p.wt = some (c - p.arrival - p.burst)

/-- C7: for positive-burst inputs with distinct non-`"Idle"`
identifiers, when the loop exits every record's CT is `index of its
last executed unit + 1`, `TAT = CT - arrival`, and `WT = TAT - burst`
clamped at zero (hence `WT ≥ 0`). -/
theorem srtf_metric_formulas (ps : List Proc) (fuel : Nat)
    (hb : validBursts ps) (hd : nodupPids ps) (hn : noIdlePid ps)
    (ht : srtfTerminates fuel ps) : recordsMetrics fuel ps := by
  by_cases hemp : ps = []
  · subst hemp
    intro p hp
    exact absurd hp (by simp [srtfRecords, srtfOut])
  · have hrec := srtfRecords_of_ne fuel ps hemp
    have htr := srtfTrace_of_ne fuel ps hemp
    have hinv : SimInv (runFuel fuel ps) := simLoop_SimInv fuel _ (initState_SimInv ps hb)
    have hpi : PidInv (runFuel fuel ps) :=
      simLoop_PidInv fuel _ (initState_SimInv ps hb) (initState_PidInv ps hd hn)
    have hdone : (runFuel fuel ps).completed = (runFuel fuel ps).procs.length := by
      rw [runFuel_length]
      exact ht
    have hfin := finished_all (runFuel fuel ps) hinv hdone
    intro p hp
    rw [hrec] at hp
    obtain ⟨hrem, c, hct⟩ := hfin p hp
    obtain ⟨-, -, -, h4, h5⟩ := hinv.ctSpec p hp c hct
    obtain ⟨g0, g1, g2, g3⟩ := hpi.lastocc p hp c hct
    rw [htr]
    exact ⟨c, hct, g0, g1, g2, g3, h4, h5⟩

/-- C7 witness: the metric formulas instantiated at the C1 scenario. -/
theorem srtf_metric_formulas_witness :
    validBursts [⟨"P1", 0, 8⟩, ⟨"P2", 1, 4⟩] ∧
    nodupPids [⟨"P1", 0, 8⟩, ⟨"P2", 1, 4⟩] ∧
    noIdlePid [⟨"P1", 0, 8⟩, ⟨"P2", 1, 4⟩] ∧
    srtfTerminates 13 [⟨"P1", 0, 8⟩, ⟨"P2", 1, 4⟩] ∧
    recordsMetrics 13 [⟨"P1", 0, 8⟩, ⟨"P2", 1, 4⟩] :=
  ⟨by decide, by decide, by decide, by decide,
   srtf_metric_formulas [⟨"P1", 0, 8⟩, ⟨"P2", 1, 4⟩] 13
     (by decide) (by decide) (by decide) (by decide)⟩

theorem map_core_filter_arrival (a : Nat) :
    ∀ l : List SimP, (l.filter (fun p => p.arrival == a)).map SimP.core =
      (l.map SimP.core).filter (fun c => c.2.1 == a) := by
  intro l
  induction l with
  | nil => rfl
  | cons p l ih =>
    by_cases hpa : ((p.arrival == a) : Bool) = true
    · have hpa2 : (((SimP.core p).2.1 == a) : Bool) = true := hpa
      rw [List.filter_cons, List.map_cons, List.filter_cons, if_pos hpa, if_pos hpa2,
        List.map_cons, ih]
    · have hpa2 : ¬(((SimP.core p).2.1 == a) : Bool) = true := hpa
      rw [List.filter_cons, List.map_cons, List.filter_cons, if_neg hpa, if_neg hpa2, ih]

theorem pairwise_arrival (l : List SimP) :
    List.Pairwise arrLE l ↔ List.Pairwise (fun a b : Nat => a ≤ b) (l.map SimP.arrival) := by
  induction l with
  | nil => simp
  | cons p l ih =>
    simp only [List.map_cons, List.pairwise_cons]
    constructor
    · rintro ⟨h1, h2⟩
      refine ⟨?_, ih.1 h2⟩
      intro b hb
      obtain ⟨q, hq, hqe⟩ := List.mem_map.1 hb
      rw [← hqe]
      exact h1 q hq
    · rintro ⟨h1, h2⟩
      refine ⟨?_, ih.2 h2⟩
      intro q hq
      exact h1 (SimP.arrival q) (List.mem_map_of_mem _ hq)

theorem sorted_of_arrival_map (l l2 : List SimP)
    (h : l.map SimP.arrival = l2.map SimP.arrival) (h2 : List.Sorted arrLE l2) :
    List.Sorted arrLE l := by
  have h3 := (pairwise_arrival l2).1 h2
  rw [← h] at h3
  exact (pairwise_arrival l).2 h3

/-- An input whose record order differs both from the caller's order
and from completion order: `P2` is given first but arrives later, and
completes first. -/
def crossInput : List Proc := [⟨"P2", 1, 1⟩, ⟨"P1", 0, 5⟩]

/-- C10: the returned record list is the stable arrival-sort of the
input (non-decreasing arrival; equal arrivals keep the caller's
relative order), and on `crossInput` it matches neither the caller's
order (`[P2, P1]`) nor completion order (`P2` completes at 2, `P1` at
6, yet `P1`'s record comes first). -/
theorem srtf_record_order :
    (∀ (ps : List Proc) (fuel : Nat), ps ≠ [] →
      List.Sorted arrLE (srtfRecords fuel ps) ∧
      ∀ a : Nat, ((srtfRecords fuel ps).filter (fun p => p.arrival == a)).map SimP.core =
        ((ps.map procToSim).filter (fun p => p.arrival == a)).map SimP.core) ∧
    (srtfRecords (defaultFuel crossInput) crossInput).map SimP.pid = ["P1", "P2"] ∧
    crossInput.map Proc.pid = ["P2", "P1"] ∧
    (srtfRecords (defaultFuel crossInput) crossInput).map SimP.ct = [some 6, some 2] := by
  refine ⟨?_, by decide, by decide, by decide⟩
  intro ps fuel hemp
  have hrec := srtfRecords_of_ne fuel ps hemp
  have hcore : (runFuel fuel ps).procs.map SimP.core = (initProcs ps).map SimP.core := by
    rw [runFuel]
    exact simLoop_core fuel (initState ps)
  constructor
  · rw [hrec]
    exact sorted_of_arrival_map _ _ (arrivalMap_eq_of_core _ _ hcore) (initProcs_sorted ps)
  · intro a
    rw [hrec, map_core_filter_arrival a, hcore, ← map_core_filter_arrival a,
      initProcs_stable ps a]

/-- C10 witness: the ordering and stability facts instantiated at
`crossInput`. -/
theorem srtf_record_order_witness :
    crossInput ≠ [] ∧
    List.Sorted arrLE (srtfRecords (defaultFuel crossInput) crossInput) ∧
    ((srtfRecords (defaultFuel crossInput) crossInput).filter
        (fun p => p.arrival == 0)).map SimP.core =
      ((crossInput.map procToSim).filter (fun p => p.arrival == 0)).map SimP.core :=
  ⟨by decide,
   (srtf_record_order.1 crossInput (defaultFuel crossInput) (by decide)).1,
   (srtf_record_order.1 crossInput (defaultFuel crossInput) (by decide)).2 0⟩

/-- A raw process dict: each of the four accepted arrival/burst key
spellings is present or absent (`'pid'` is always present). -/
structure RawProc where
  pid : String
  arrivalKey : Option Nat
  arrivalTimeKey : Option Nat
  burstKey : Option Nat
  burstTimeKey : Option Nat
deriving DecidableEq

/-- Lines 23-27 of `srtf_logic.py`: copy `'arrival_time'` to
`'arrival'` when the canonical key is absent, then likewise for
`'burst_time'`/`'burst'`. -/
def normalizeRaw (r : RawProc) : RawProc :=
  let r1 :=
    if r.arrivalTimeKey.isSome ∧ r.arrivalKey = none then
      { r with arrivalKey := r.arrivalTimeKey }
    else r
  if r1.burstTimeKey.isSome ∧ r1.burstKey = none then
    { r1 with burstKey := r1.burstTimeKey }
  else r1

/-- The canonical fields the simulation reads (`p['arrival']`,
`p['burst']`); `none` models the `KeyError` raised when a key is
missing after normalization. -/
def rawToProc (r : RawProc) : Option Proc :=
  match (normalizeRaw r).arrivalKey, (normalizeRaw r).burstKey with
  | some a, some b => some ⟨r.pid, a, b⟩
  | _, _ => none

/-- Decode a whole raw input, failing when any descriptor lacks a key. -/
def decodeRaws : List RawProc → Option (List Proc)
  | [] => some []
  | r :: rs =>
    match rawToProc r, decodeRaws rs with
    | some p, some ps => some (p :: ps)
    | _, _ => none

/-- `srtf_scheduling` on raw dicts: normalize the key spellings, then
simulate.  The comparison captures the trace, both averages, and every
record's pid/arrival/burst/ct/tat/wt. -/
def srtf_schedulingRaw (rs : List RawProc) : Option (List SimP × ℚ × ℚ × List String) :=
  (decodeRaws rs).map srtf_scheduling

/-- Build the raw dict for descriptor `p` choosing the alternate
spelling for arrival iff `altA`, and for burst iff `altB` — so each
dict carries exactly one spelling of each field. -/
def encodeRaw (p : Proc) (altA altB : Bool) : RawProc :=
  { pid := p.pid,
    arrivalKey := if altA then none else some p.arrival,
    arrivalTimeKey := if altA then some p.arrival else none,
    burstKey := if altB then none else some p.burst,
    burstTimeKey := if altB then some p.burst else none }

theorem rawToProc_encode (p : Proc) (a b : Bool) : rawToProc (encodeRaw p a b) = some p := by
  cases a <;> cases b <;> rfl

theorem decodeRaws_encode (l : List (Proc × Bool × Bool)) :
    decodeRaws (l.map fun x => encodeRaw x.1 x.2.1 x.2.2) = some (l.map Prod.fst) := by
  induction l with
  | nil => rfl
  | cons x l ih =>
    rw [List.map_cons, decodeRaws, rawToProc_encode, ih]
    rfl

/-- C9: renaming `'arrival'` to `'arrival_time'` and/or `'burst'` to
`'burst_time'` in any subset of the descriptors (each carrying exactly
one spelling per field) leaves the whole result — records'
pid/arrival/burst/ct/tat/wt, both averages, and the trace — unchanged:
any two spelling choices over the same descriptors agree. -/
theorem srtf_alias_equiv :
    ∀ l₁ l₂ : List (Proc × Bool × Bool),
      l₁.map Prod.fst = l₂.map Prod.fst →
      srtf_schedulingRaw (l₁.map fun x => encodeRaw x.1 x.2.1 x.2.2) =
        srtf_schedulingRaw (l₂.map fun x => encodeRaw x.1 x.2.1 x.2.2) := by
  intro l₁ l₂ h
  rw [srtf_schedulingRaw, srtf_schedulingRaw, decodeRaws_encode, decodeRaws_encode, h]

/-- C9 witness: the C1 scenario with `P1` spelled `arrival_time` and
`P2` spelled `burst_time` gives the same result as the fully canonical
spelling. -/
theorem srtf_alias_equiv_witness :
    ([(⟨"P1", 0, 8⟩, true, false), (⟨"P2", 1, 4⟩, false, true)] :
        List (Proc × Bool × Bool)).map Prod.fst =
      ([(⟨"P1", 0, 8⟩, false, false), (⟨"P2", 1, 4⟩, false, false)] :
        List (Proc × Bool × Bool)).map Prod.fst ∧
    srtf_schedulingRaw
        (([(⟨"P1", 0, 8⟩, true, false), (⟨"P2", 1, 4⟩, false, true)] :
          List (Proc × Bool × Bool)).map fun x => encodeRaw x.1 x.2.1 x.2.2) =
      srtf_schedulingRaw
        (([(⟨"P1", 0, 8⟩, false, false), (⟨"P2", 1, 4⟩, false, false)] :
          List (Proc × Bool × Bool)).map fun x => encodeRaw x.1 x.2.1 x.2.2) :=
  ⟨rfl, srtf_alias_equiv _ _ rfl⟩

/-- C8: the empty process list returns empty records, zero averages and
an empty trace (lines 20-21 of `srtf_logic.py`). -/
theorem srtf_empty_input : srtf_scheduling [] = ([], 0, 0, []) := rfl

/-- C1: on `[{P1,0,8},{P2,1,4}]` the scheduler produces exactly the
preemption trace `[P1, P2,P2,P2,P2, P1,...,P1]`, with records (in
arrival order) P1: CT=12, TAT=12, WT=4 and P2: CT=5, TAT=4, WT=0, and
averages 2 and 8. -/
theorem srtf_preemption_scenario :
    srtf_scheduling [⟨"P1", 0, 8⟩, ⟨"P2", 1, 4⟩] =
      ([⟨"P1", 0, 8, 0, some 12, some 12, some 4⟩,
        ⟨"P2", 1, 4, 0, some 5, some 4, some 0⟩],
       2, 8,
       ["P1", "P2", "P2", "P2", "P2", "P1", "P1", "P1", "P1", "P1", "P1", "P1"]) := by
  have h : runFuel (defaultFuel [⟨"P1", 0, 8⟩, ⟨"P2", 1, 4⟩]) [⟨"P1", 0, 8⟩, ⟨"P2", 1, 4⟩] =
      ⟨[⟨"P1", 0, 8, 0, some 12, some 12, some 4⟩,
        ⟨"P2", 1, 4, 0, some 5, some 4, some 0⟩], 2, 12,
       ["P1", "P2", "P2", "P2", "P2", "P1", "P1", "P1", "P1", "P1", "P1", "P1"]⟩ := by
    decide
  simp only [srtf_scheduling, srtfOut, h, List.isEmpty_cons, Bool.false_eq_true, if_false,
    totalWT, totalTAT, List.map_cons, List.map_nil, List.sum_cons, List.sum_nil,
    List.length_cons, List.length_nil]
  norm_num
